import Mathlib

/-!
Verification of the `pool` package of go-service-utils (src/pool/pool.go):
a bounded worker pool with optional priority scheduling, per-task timeouts,
cancellation, panic recovery and futures.

The Go code is shallowly embedded: every definition below mirrors a named
function or data structure of `pool.go` (line references in the doc
comments).  Concurrency is resolved into explicit environment parameters:
the winner of each `select` race and the firing state of each context are
inputs, and the side effects a code path performs (WaitGroup `Done`s,
counter increments, future resolutions, panic-handler invocations) are
returned in an explicit effects record.
-/

set_option maxHeartbeats 1000000

namespace Pool

/-- Go `error` values that appear in pool.go: the package-level sentinel
errors (lines 29-35), the two standard-library context errors, the wrapped
panic error `fmt.Errorf("任务panic: %v", r)` (line 461, the raw panic value
modelled as a `Nat`), the arity error `fmt.Errorf("任务函数不应有参数")`
(line 518), and opaque user errors returned by tasks. -/
inductive GoErr : Type
  | poolClosed
  | contextCanceled
  | taskTimeout
  | nilTask
  | invalidTask
  | noArgsAllowed
  | panicErr (r : Nat)
  | ctxCanceledStd
  | ctxDeadlineExceeded
  | userErr (id : Nat)
  deriving DecidableEq, Repr

/-- Opaque Go values (`interface{}`): task results.  `listV` models the
`[]reflect.Value` slice returned verbatim by `callFunc` for unusual return
arities (line 539); `errV`/`nilV` model the second return position of a
`(T, error)` function. -/
inductive GoVal : Type
  | intV (n : Int)
  | nilV
  | errV (e : GoErr)
  | listV (vs : List GoVal)

/-- Priority constants (pool.go lines 22-26). -/
def PriorityLow : Nat := 1

/-- pool.go line 24. -/
def PriorityNormal : Nat := 5

/-- pool.go line 25. -/
def PriorityHigh : Nat := 10

/-- Behaviour of a plain `Task` (`func() error`, pool.go line 16) when it
runs to completion: it returns an optional error, or it panics with a raw
value. -/
inductive SimpleBehavior : Type
  | ret (err : Option GoErr)
  | panics (r : Nat)
  deriving DecidableEq, Repr

/-- A Go function value submitted through `SubmitFunc`, as seen by the
reflection in `callFunc` (pool.go lines 509-540): its arity, return
values, whether the second return type implements `error`, and whether
calling it panics. -/
structure GoFunc : Type where
  numIn : Nat
  outs : List GoVal
  out1IsError : Bool
  callPanics : Option Nat

/-- The dynamic value stored in `taskWrapper.task` (an `interface{}`):
either a value of the concrete type `Task` (matched by the type assertion
at pool.go line 470) or an arbitrary value handed to `callFunc`
(a function, or not a function at all). -/
inductive SubmittedTask : Type
  | simple (b : SimpleBehavior)
  | resultFn (f : GoFunc)
  | notFunc (v : GoVal)

/-- `taskWrapper` (pool.go lines 175-183).  The context is modelled by
`ctxFired`: whether `tw.ctx.Done()` has fired at the moment it is
inspected;  `hasFuture` records whether `tw.future != nil`;  `index` is
the heap index field (an `Int`, since `Pop` sets it to `-1`). -/
structure taskWrapper : Type where
  task : SubmittedTask := .simple (.ret none)
  ctxFired : Bool := false
  priority : Nat := PriorityNormal
  timeout : Nat := 0
  added : Nat := 0
  hasFuture : Bool := false
  index : Int := 0

instance : Inhabited taskWrapper := ⟨{}⟩

/-- `futureImpl` (pool.go lines 186-192): the mutexed state `{result, err,
done}`.  The `completeCh` channel is closed exactly when `done` becomes
true, so it needs no separate field. -/
structure futureImpl : Type where
  result : Option GoVal := none
  err : Option GoErr := none
  done : Bool := false

/-- `futureImpl.setResult` (pool.go lines 602-613): under the mutex, if
not yet done, store the result and error, mark done (and close
`completeCh`); otherwise do nothing. -/
def setResult (f : futureImpl) (result : Option GoVal) (err : Option GoErr) : futureImpl :=
  if f.done then f
  else { result := result, err := err, done := true }

/-- `futureImpl.setError` (pool.go lines 615-618): `setResult(nil, err)`. -/
def setError (f : futureImpl) (err : GoErr) : futureImpl :=
  setResult f none (some err)

/-- A resolution attempt on a future: which of the two entry points was
called and with what arguments. -/
inductive ResolveCall : Type
  | callSetResult (result : Option GoVal) (err : Option GoErr)
  | callSetError (err : GoErr)

/-- Apply one resolution attempt. -/
def applyResolve (f : futureImpl) : ResolveCall → futureImpl
  | .callSetResult r e => setResult f r e
  | .callSetError e => setError f e

/-- Apply a sequence of resolution attempts in order. -/
def applyResolves (f : futureImpl) (calls : List ResolveCall) : futureImpl :=
  calls.foldl applyResolve f

/-- The cause reported by a fired context's `Err()` (standard library). -/
inductive CtxCause : Type
  | canceled
  | deadlineExceeded
  deriving DecidableEq, Repr

/-- `CtxCause` as the Go error returned by `ctx.Err()`. -/
def CtxCause.toErr : CtxCause → GoErr
  | .canceled => .ctxCanceledStd
  | .deadlineExceeded => .ctxDeadlineExceeded

/-- Environment for a `futureImpl.Get` call on a future that is still
pending when `Get` starts: either the future is resolved (with the given
arguments) before the caller's context fires, or the context fires first
with the given cause. -/
inductive GetEnv : Type
  | resolvedFirst (result : Option GoVal) (err : Option GoErr)
  | ctxFirst (cause : CtxCause)

/-- `futureImpl.Get` (pool.go lines 620-643): under the mutex, if `done`
return the stored outcome immediately (the context is never consulted);
otherwise block on `select { completeCh | ctx.Done }`: if the resolution
arrives first its stored outcome is returned, if the context fires first
`(nil, ctx.Err())` is returned. -/
def Get (f : futureImpl) (env : GetEnv) : Option GoVal × Option GoErr :=
  if f.done then (f.result, f.err)
  else
    match env with
    | .resolvedFirst r e => ((setResult f r e).result, (setResult f r e).err)
    | .ctxFirst cause => (none, some cause.toErr)

/-- Environment for `GetWithTimeout`: the race of the pending future
against the timeout context created inside the call.  When that context
fires first its cause is always `DeadlineExceeded`. -/
inductive GetTimeoutEnv : Type
  | resolvedFirst (result : Option GoVal) (err : Option GoErr)
  | timedOut

/-- The `GetEnv` seen by the inner `Get` of `GetWithTimeout`: the derived
token fires with cause `DeadlineExceeded`. -/
def GetTimeoutEnv.toGetEnv : GetTimeoutEnv → GetEnv
  | .resolvedFirst r e => .resolvedFirst r e
  | .timedOut => .ctxFirst .deadlineExceeded

/-- `futureImpl.GetWithTimeout` (pool.go lines 645-650): create
`ctx = context.WithTimeout(Background, timeout)` and call `Get(ctx)`.
The `timeout` argument only determines when the created token fires,
which the environment already encodes. -/
def GetWithTimeout (f : futureImpl) (timeout : Nat) (env : GetTimeoutEnv) :
    Option GoVal × Option GoErr :=
  Get f env.toGetEnv

/-- `futureImpl.IsDone` (pool.go lines 652-657). -/
def IsDone (f : futureImpl) : Bool :=
  f.done

/-- Outcome of `callFunc` (pool.go lines 509-540): either it returns a
`(result, err)` pair — with `invoked` recording whether `v.Call` was
reached — or the reflective call itself panics (propagating to the
worker's recover). -/
inductive CallOutcome : Type
  | returns (result : Option GoVal) (err : Option GoErr) (invoked : Bool)
  | panicked (r : Nat)

/-- `callFunc` (pool.go lines 509-540), mirrored branch by branch:
not a function → `ErrInvalidTask`; `NumIn() != 0` → the distinct arity
error `fmt.Errorf("任务函数不应有参数")`, without calling; zero results →
`(nil, nil)`; one result → `(results[0], nil)`; two results whose second
type implements `error` → `(results[0], results[1])` with a nil second
value mapped to no error; any other arity → the raw results slice with a
nil error.  A `Task` value never reaches `callFunc` — the type assertion
at line 470 intercepts it — so the `simple` branch (and the non-nil
non-error second result, impossible for a well-typed Go function) are
unreachable and modelled as plain calls. -/
def callFunc (v : SubmittedTask) : CallOutcome :=
  match v with
  | .simple _ => .returns none none true
  | .notFunc _ => .returns none (some .invalidTask) false
  | .resultFn f =>
    if f.numIn ≠ 0 then .returns none (some .noArgsAllowed) false
    else
      match f.callPanics with
      | some r => .panicked r
      | none =>
        if f.outs.length = 0 then .returns none none true
        else if f.outs.length = 1 then .returns f.outs.head? none true
        else if f.outs.length = 2 ∧ f.out1IsError then
          match f.outs.getD 1 .nilV with
          | .nilV => .returns (f.outs.head?) none true
          | .errV e => .returns (f.outs.head?) (some e) true
          | _ => .returns (f.outs.head?) none true
        else .returns (some (.listV f.outs)) none true

/-- Result of the worker's inner goroutine (pool.go lines 458-476) when
the task runs to completion: the values of the shared `result`/`err`
variables after the deferred recover, plus the raw panic value passed to
the panic handler (if the task panicked). -/
structure InnerResult : Type where
  result : Option GoVal := none
  err : Option GoErr := none
  panicked : Option Nat := none
  invoked : Bool := false

/-- The inner goroutine body (pool.go lines 458-476): the type assertion
`tw.task.(Task)` selects direct invocation for plain tasks, everything
else goes through `callFunc`; a panic is recovered, converted to
`fmt.Errorf("任务panic: %v", r)` and handed to the panic handler. -/
def runInner (t : SubmittedTask) : InnerResult :=
  match t with
  | .simple (.ret e) => { err := e, invoked := true }
  | .simple (.panics r) => { err := some (.panicErr r), panicked := some r, invoked := true }
  | _ =>
    match callFunc t with
    | .returns r e inv => { result := r, err := e, invoked := inv }
    | .panicked r => { err := some (.panicErr r), panicked := some r, invoked := false }

/-- Winner of the `select` race at pool.go lines 479-491: either the
`done` channel (task finished, possibly after a recovered panic), or the
derived context with `Err() == DeadlineExceeded` (timeout), or the derived
context with a plain cancellation. -/
inductive RaceOutcome : Type
  | taskDone
  | ctxTimeout
  | ctxCanceled
  deriving DecidableEq, Repr

/-- The synchronous side effects of one code path: WaitGroup `Done`s,
running-task counter increments/decrements, completed/timeout counter
increments, the resolution applied to the wrapper's future (if any), and
the raw value passed to the configured panic handler (if invoked). -/
structure Effects : Type where
  wgDone : Nat := 0
  runningInc : Nat := 0
  runningDec : Nat := 0
  completedInc : Nat := 0
  timeoutInc : Nat := 0
  futureRes : Option (Option GoVal × Option GoErr) := none
  panicRaw : Option Nat := none

/-- The future resolution performed at pool.go lines 494-500:
`setError(err)` when `err != nil`, else `setResult(result, nil)`. -/
def futureOutcome (result : Option GoVal) (err : Option GoErr) :
    Option GoVal × Option GoErr :=
  match err with
  | some e => (none, some e)
  | none => (result, none)

/-- `processTask` (pool.go lines 423-507) as an effects function.
`ctxDoneAtEntry` is whether `tw.ctx.Done()` has fired at the entry check
(lines 426-434); `race` is the winner of the completion/expiry select
(lines 479-491).  Effects of a detached inner goroutine that outlives a
lost race are not part of this synchronous record. -/
def processTask (tw : taskWrapper) (ctxDoneAtEntry : Bool) (race : RaceOutcome) : Effects :=
  if ctxDoneAtEntry then
    { wgDone := 1
      futureRes := if tw.hasFuture then some (none, some .contextCanceled) else none }
  else
    let inner := runInner tw.task
    match race with
    | .taskDone =>
      { wgDone := 1, runningInc := 1, runningDec := 1, completedInc := 1
        futureRes := if tw.hasFuture then some (futureOutcome inner.result inner.err) else none
        panicRaw := inner.panicked }
    | .ctxTimeout =>
      { wgDone := 1, runningInc := 1, runningDec := 1, completedInc := 1, timeoutInc := 1
        futureRes := if tw.hasFuture then some (none, some .taskTimeout) else none }
    | .ctxCanceled =>
      { wgDone := 1, runningInc := 1, runningDec := 1, completedInc := 1
        futureRes := if tw.hasFuture then some (none, some .contextCanceled) else none }

/-- The dispatcher's cancellation path (pool.go lines 386-405): a popped
wrapper whose context has fired is resolved as `ErrContextCanceled`
(future permitting) and its WaitGroup slot released, without execution. -/
def dispatcherResolve (tw : taskWrapper) : Effects :=
  { wgDone := 1
    futureRes := if tw.hasFuture then some (none, some .contextCanceled) else none }

/-- Result of a submission attempt: the returned error plus the number of
`wg.Add(1)` and `wg.Done()` calls the attempt performed. -/
structure SubmitResult : Type where
  err : Option GoErr
  wgAdds : Nat
  wgDones : Nat

/-- `submitTask` (pool.go lines 330-358).  `queueAccepts` is whether, in
FIFO mode, the send `p.taskQueue <- tw` wins the select against
`tw.ctx.Done()` (a context that never fires always lets the send win once
queue space appears). -/
def submitTask (enablePriority : Bool) (tw : taskWrapper) (queueAccepts : Bool) : SubmitResult :=
  if tw.ctxFired then { err := some .contextCanceled, wgAdds := 0, wgDones := 0 }
  else if enablePriority then { err := none, wgAdds := 1, wgDones := 0 }
  else if queueAccepts then { err := none, wgAdds := 1, wgDones := 0 }
  else { err := some .contextCanceled, wgAdds := 1, wgDones := 1 }

/-- `SubmitWithOptions` (pool.go lines 258-288): nil-task check, closed
check, then a wrapper with `ctx: context.Background()` (which never
fires, line 281) is handed to `submitTask`. -/
def SubmitWithOptions (closed : Bool) (enablePriority : Bool) (taskIsNil : Bool)
    (opts : taskWrapper → taskWrapper) (queueAccepts : Bool) : SubmitResult :=
  if taskIsNil then { err := some .nilTask, wgAdds := 0, wgDones := 0 }
  else if closed then { err := some .poolClosed, wgAdds := 0, wgDones := 0 }
  else submitTask enablePriority (opts { ctxFired := false }) queueAccepts

/-- `SubmitWithContext` (pool.go lines 248-255): it forwards to
`SubmitWithOptions` with default options.  The caller's context — whose
fired state is `callerCtxFired` — appears nowhere in the body: the
wrapper is built with `context.Background()`. -/
def SubmitWithContext (closed : Bool) (enablePriority : Bool) (callerCtxFired : Bool)
    (taskIsNil : Bool) (queueAccepts : Bool) : SubmitResult :=
  SubmitWithOptions closed enablePriority taskIsNil
    (fun tw => { tw with priority := PriorityNormal, timeout := 0 }) queueAccepts

/-- The terminal resolution of a successfully enqueued wrapper
(spec §3 invariant: executed, or explicitly resolved as cancelled):
cancelled by the dispatcher while pending (pool.go lines 386-405),
cancelled at the worker's entry check (lines 426-434), or executed with
the given race outcome (lines 436-507). -/
inductive Resolution : Type
  | dispatcherCancel
  | workerCancel
  | executed (race : RaceOutcome)

/-- Effects of a terminal resolution.  `workerCancel` is `processTask`
with the entry check firing, where the race argument is never reached. -/
def resolveEffects (tw : taskWrapper) : Resolution → Effects
  | .dispatcherCancel => dispatcherResolve tw
  | .workerCancel => processTask tw true .taskDone
  | .executed race => processTask tw false race

/-- One submission together with its fate: the wrapper handed to
`submitTask`, whether the FIFO queue accepted it before its context fired,
and — if the submission succeeded — its terminal resolution. -/
structure Submission : Type where
  tw : taskWrapper
  queueAccepts : Bool := true
  res : Resolution := .executed .taskDone

/-- The pool's shared counters: the WaitGroup value (`wg`), the
running-task gauge, and the completed/timeout counters
(pool.go lines 165-169). -/
structure Counters : Type where
  wg : Int := 0
  running : Int := 0
  completed : Nat := 0
  timeouts : Nat := 0

/-- Apply the effects of one terminal resolution to the counters. -/
def applyEffects (c : Counters) (e : Effects) : Counters :=
  { wg := c.wg - e.wgDone
    running := c.running + e.runningInc - e.runningDec
    completed := c.completed + e.completedInc
    timeouts := c.timeouts + e.timeoutInc }

/-- Process one submission: run `submitTask`; on failure only the
submit-path WaitGroup traffic happens, on success the wrapper is
eventually resolved exactly once (spec §3 invariant) and its resolution
effects are applied. -/
def applySubmission (enablePriority : Bool) (c : Counters) (s : Submission) : Counters :=
  let sr := submitTask enablePriority s.tw s.queueAccepts
  match sr.err with
  | some _ => { c with wg := c.wg + sr.wgAdds - sr.wgDones }
  | none => applyEffects { c with wg := c.wg + sr.wgAdds } (resolveEffects s.tw s.res)

/-- The cumulative counter state after every submission of the run has
been submitted and resolved — the state observed once `Wait()` (a
`wg.Wait()`, pool.go lines 542-545) has returned. -/
def runPool (enablePriority : Bool) (subs : List Submission) : Counters :=
  subs.foldl (applySubmission enablePriority) {}

/-- A submission is counted as non-cancelled when it was accepted and its
wrapper actually reached execution (it was not cancelled at submit time,
in the dispatcher, or at the worker's entry check). -/
def isNonCancelled (enablePriority : Bool) (s : Submission) : Bool :=
  (submitTask enablePriority s.tw s.queueAccepts).err == none &&
    match s.res with
    | .executed _ => true
    | _ => false

/-- Number of non-cancelled submissions in a run. -/
def nonCancelledCount (enablePriority : Bool) (subs : List Submission) : Nat :=
  (subs.filter (isNonCancelled enablePriority)).length

/-- The timeout-counter increment a submission contributes to the run. -/
def submissionTimeout (enablePriority : Bool) (s : Submission) : Nat :=
  match (submitTask enablePriority s.tw s.queueAccepts).err with
  | some _ => 0
  | none => (resolveEffects s.tw s.res).timeoutInc

/-- Total timeout-counter increments of a run. -/
def timeoutTotal (enablePriority : Bool) (subs : List Submission) : Nat :=
  (subs.map (submissionTimeout enablePriority)).sum

/-! ### The priority queue (pool.go lines 659-693) and `container/heap`

The Go slice `priorityQueue []*taskWrapper` is modelled with its backing
store visible: a list of `Option taskWrapper` cells of which the first
`n` are the live slice (`Pop` writes `nil` into the vacated backing cell
before shrinking the slice, pool.go line 689). -/

/-- The priority queue with its backing store. -/
structure PQ : Type where
  backing : List (Option taskWrapper)
  n : Nat

/-- The empty queue (`make(priorityQueue, 0)`, pool.go line 224). -/
def PQ.empty : PQ :=
  { backing := [], n := 0 }

/-- The element at live index `i` (out-of-range and vacated cells read as
the default wrapper; well-formed queues never have those below `n`). -/
def PQ.get (pq : PQ) (i : Nat) : taskWrapper :=
  (pq.backing.getD i none).getD default

/-- The element-level comparison performed by `priorityQueue.Less`
(pool.go lines 663-670): if the priorities differ, the higher priority
comes first; otherwise the earlier `added` time does
(`time.Time.Before`). -/
def ltW (a b : taskWrapper) : Bool :=
  if a.priority ≠ b.priority then
    decide (a.priority > b.priority)
  else
    decide (a.added < b.added)

/-- `priorityQueue.Less` (pool.go lines 663-670). -/
def Less (pq : PQ) (i j : Nat) : Bool :=
  ltW (pq.get i) (pq.get j)

/-- `priorityQueue.Swap` (pool.go lines 672-676): exchange positions `i`
and `j` and write each element's new position into its `index` field. -/
def Swap (pq : PQ) (i j : Nat) : PQ :=
  let a := pq.get i
  let b := pq.get j
  { backing :=
      (pq.backing.set i (some { b with index := (i : Int) })).set j (some { a with index := (j : Int) })
    n := pq.n }

/-- Write a cell of the backing store at position `i`, growing it by one
cell when `i` is just past the end (Go's `append`). -/
def placeAt (l : List (Option taskWrapper)) (i : Nat) (v : Option taskWrapper) :
    List (Option taskWrapper) :=
  if i < l.length then l.set i v else l ++ [v]

/-- `priorityQueue.Push` (pool.go lines 678-683): set the item's `index`
to the current length and append it. -/
def Push (pq : PQ) (x : taskWrapper) : PQ :=
  { backing := placeAt pq.backing pq.n (some { x with index := (pq.n : Int) })
    n := pq.n + 1 }

/-- `priorityQueue.Pop` (pool.go lines 685-693): take the last element,
write `nil` into its backing cell, mark the item's `index` as `-1`, and
shrink the slice by one.  Returns the item and the shrunk queue. -/
def Pop (pq : PQ) : taskWrapper × PQ :=
  let item := pq.get (pq.n - 1)
  ({ item with index := -1 },
   { backing := pq.backing.set (pq.n - 1) none, n := pq.n - 1 })

/-- The sift-up loop of `up` from `container/heap` (Go standard library):
while `j` has a parent `i = (j-1)/2` with `Less(j, i)`, swap and continue
from `i`.  The loop index strictly decreases, so `fuel` iterations always
suffice when `fuel ≥ j`; the fuel argument only makes the loop's
structural termination explicit. -/
def upAux (pq : PQ) (j : Nat) : Nat → PQ
  | 0 => pq
  | fuel + 1 =>
    let i := (j - 1) / 2
    if i = j ∨ Less pq j i = false then pq
    else upAux (Swap pq i j) i fuel

/-- `up(h, j)` from `container/heap`, run by `heap.Push`. -/
def up (pq : PQ) (j : Nat) : PQ :=
  upAux pq j j

/-- The loop of `down` from `container/heap`: starting at `i`, pick the
smaller child `j` among `2i+1` and `2i+2` (below `n`); stop when there is
no child below `n` or `¬ Less(j, i)`, else swap and continue from `j`.
The loop index strictly increases towards `n`, so `fuel ≥ n` iterations
always suffice. -/
def downAux (pq : PQ) (i n : Nat) : Nat → PQ
  | 0 => pq
  | fuel + 1 =>
    if n ≤ 2 * i + 1 then pq
    else
      let j := if 2 * i + 2 < n ∧ Less pq (2 * i + 2) (2 * i + 1) = true then 2 * i + 2
               else 2 * i + 1
      if Less pq j i = false then pq
      else downAux (Swap pq i j) j n fuel

/-- `down(h, i0, n)` from `container/heap` (the boolean result, unused by
`heap.Pop`, is dropped). -/
def down (pq : PQ) (i0 n : Nat) : PQ :=
  downAux pq i0 n n

/-- The child index `j` selected by one iteration of `down` at `i` with
bound `m`: the smaller of the two children when both exist. -/
def downJ (pq : PQ) (i m : Nat) : Nat :=
  if 2 * i + 2 < m ∧ Less pq (2 * i + 2) (2 * i + 1) = true then 2 * i + 2
  else 2 * i + 1

/-- `heap.Push` (Go standard library): `h.Push(x); up(h, h.Len()-1)`.
This is how `submitTask` inserts into the priority queue
(pool.go line 345). -/
def heapPush (pq : PQ) (x : taskWrapper) : PQ :=
  up (Push pq x) ((Push pq x).n - 1)

/-- `heap.Pop` (Go standard library): `n := h.Len()-1; h.Swap(0, n);
down(h, 0, n); return h.Pop()`.  This is how the dispatcher takes the
next task (pool.go line 382). -/
def heapPop (pq : PQ) : taskWrapper × PQ :=
  let m := pq.n - 1
  Pop (down (Swap pq 0 m) 0 m)

/-- Pop `k` tasks in sequence, returning them in dispatch order — the
dispatcher loop (pool.go lines 373-406) with every context alive and no
concurrency contention. -/
def popAll (pq : PQ) : Nat → List taskWrapper
  | 0 => []
  | k + 1 =>
    let (x, pq') := heapPop pq
    x :: popAll pq' k

/-- Build a queue by `heap.Push`ing each wrapper in submission order. -/
def pushAll (pq : PQ) (xs : List taskWrapper) : PQ :=
  xs.foldl heapPush pq

/-- `worker` (pool.go lines 410-414) / `priorityWorker` (lines 417-421):
process each incoming wrapper in turn — the triple carries the wrapper,
its entry-check context state, and its race outcome. -/
def workerRun (l : List (taskWrapper × Bool × RaceOutcome)) : List Effects :=
  l.map (fun x => processTask x.1 x.2.1 x.2.2)

/-- Well-formedness of the slice view: the live length never exceeds the
backing store. -/
def pqWF (pq : PQ) : Prop :=
  pq.n ≤ pq.backing.length

instance (pq : PQ) : Decidable (pqWF pq) :=
  inferInstanceAs (Decidable (pq.n ≤ pq.backing.length))

/-- The index discipline of the queue: every live cell holds a wrapper
whose `index` field equals its position. -/
def indexInv (pq : PQ) : Prop :=
  ∀ i, i < pq.n → (pq.backing.getD i none).isSome = true ∧ (pq.get i).index = (i : Int)

instance (pq : PQ) : Decidable (indexInv pq) :=
  Nat.decidableBallLT pq.n _

/-- The heap shape property on the first `m` live positions: no child is
`Less` than its parent. -/
def heapInvUpTo (pq : PQ) (m : Nat) : Prop :=
  ∀ j, j < m → 0 < j → ltW (pq.get j) (pq.get ((j - 1) / 2)) = false

/-- The heap shape property of the whole queue, maintained by
`container/heap` between operations. -/
def heapInv (pq : PQ) : Prop :=
  heapInvUpTo pq pq.n

instance (pq : PQ) (m : Nat) : Decidable (heapInvUpTo pq m) :=
  Nat.decidableBallLT m _

instance (pq : PQ) : Decidable (heapInv pq) :=
  inferInstanceAs (Decidable (heapInvUpTo pq pq.n))

/-- Loop invariant of `up` with hole `j`: every parent-child edge not
ending at `j` satisfies the heap property, and the children of `j`
already dominate `j`'s parent. -/
def upPre (pq : PQ) (j : Nat) : Prop :=
  (∀ k, k < pq.n → 0 < k → k ≠ j → ltW (pq.get k) (pq.get ((k - 1) / 2)) = false) ∧
  (0 < j → ∀ c, c < pq.n → (c - 1) / 2 = j → ltW (pq.get c) (pq.get ((j - 1) / 2)) = false)

/-- Loop invariant of `down` with hole `i` within bound `m`: every
parent-child edge below `m` whose parent is not `i` satisfies the heap
property, and when `i` has a parent, the children of `i` dominate it. -/
def downPre (pq : PQ) (i m : Nat) : Prop :=
  (∀ k, k < m → 0 < k → (k - 1) / 2 ≠ i → ltW (pq.get k) (pq.get ((k - 1) / 2)) = false) ∧
  (0 < i → ∀ c, c < m → (c - 1) / 2 = i → ltW (pq.get c) (pq.get ((i - 1) / 2)) = false)

/-- One operation of the `heap.Interface` surface of `priorityQueue`
(pool.go lines 661-693), with the index preconditions under which
`container/heap` invokes it. -/
inductive PQOp : Type
  | pushOp (x : taskWrapper)
  | popOp
  | swapOp (i j : Nat)

/-- Apply one interface operation to the queue, accumulating popped
wrappers; `Pop` and `Swap` are only ever invoked within bounds by
`container/heap`, so out-of-range uses are identity. -/
def applyOp (st : PQ × List taskWrapper) (op : PQOp) : PQ × List taskWrapper :=
  match op with
  | .pushOp x => (Push st.1 x, st.2)
  | .popOp =>
    if 0 < st.1.n then
      let (w, pq') := Pop st.1
      (pq', st.2 ++ [w])
    else st
  | .swapOp i j =>
    if i < st.1.n ∧ j < st.1.n then (Swap st.1 i j, st.2) else st

/-- Apply a sequence of interface operations starting from the empty
queue. -/
def applyOps (ops : List PQOp) : PQ × List taskWrapper :=
  ops.foldl applyOp (PQ.empty, [])

/-- The four submissions of the spec's priority-ordering test: priorities
[Low, High, Normal, High] submitted at times 1, 2, 3, 4. -/
def exSubmitted : List taskWrapper :=
  [{ priority := PriorityLow, added := 1 },
   { priority := PriorityHigh, added := 2 },
   { priority := PriorityNormal, added := 3 },
   { priority := PriorityHigh, added := 4 }]

/-- The queue built by submitting `exSubmitted` in order. -/
def exQueue : PQ :=
  pushAll PQ.empty exSubmitted

/-! ### Helper lemmas -/

theorem applyResolve_done (f : futureImpl) (hf : f.done = true) (c : ResolveCall) :
    applyResolve f c = f := by
  cases c <;> simp [applyResolve, setResult, setError, hf]

theorem applyResolves_done (f : futureImpl) (hf : f.done = true) (calls : List ResolveCall) :
    applyResolves f calls = f := by
  induction calls with
  | nil => rfl
  | cons c cs ih =>
    simp only [applyResolves, List.foldl_cons, applyResolve_done f hf c]
    exact ih

theorem setResult_pending (f : futureImpl) (hf : f.done = false)
    (r : Option GoVal) (e : Option GoErr) :
    setResult f r e = { result := r, err := e, done := true } := by
  simp [setResult, hf]

theorem runInner_panicked (t : SubmittedTask) (r : Nat)
    (hp : (runInner t).panicked = some r) :
    (runInner t).result = none ∧ (runInner t).err = some (.panicErr r) := by
  rcases t with b | f | v
  · rcases b with e | r'
    · simp [runInner] at hp
    · simp only [runInner] at hp ⊢
      simp_all
  · simp only [runInner] at hp ⊢
    rcases h : callFunc (.resultFn f) with _ | r'
    · simp [h] at hp
    · simp [h] at hp ⊢
      exact hp
  · simp only [runInner] at hp ⊢
    rcases h : callFunc (.notFunc v) with _ | r'
    · simp [h] at hp
    · simp [callFunc] at h

theorem submitTask_success (ep : Bool) (tw : taskWrapper) (qa : Bool)
    (h : (submitTask ep tw qa).err = none) :
    (submitTask ep tw qa).wgAdds = 1 ∧ (submitTask ep tw qa).wgDones = 0 := by
  by_cases h1 : tw.ctxFired <;> by_cases h2 : ep <;> by_cases h3 : qa <;>
    simp [submitTask, h1, h2, h3] at h ⊢

theorem submitTask_failure (ep : Bool) (tw : taskWrapper) (qa : Bool)
    (h : (submitTask ep tw qa).err ≠ none) :
    (submitTask ep tw qa).wgAdds = (submitTask ep tw qa).wgDones := by
  by_cases h1 : tw.ctxFired <;> by_cases h2 : ep <;> by_cases h3 : qa <;>
    simp [submitTask, h1, h2, h3] at h ⊢

theorem resolveEffects_wgDone (tw : taskWrapper) (res : Resolution) :
    (resolveEffects tw res).wgDone = 1 := by
  rcases res with _ | _ | race
  · rfl
  · rfl
  · cases race <;> rfl

theorem resolveEffects_running (tw : taskWrapper) (res : Resolution) :
    (resolveEffects tw res).runningInc = (resolveEffects tw res).runningDec := by
  rcases res with _ | _ | race
  · rfl
  · rfl
  · cases race <;> rfl

theorem resolveEffects_completed (tw : taskWrapper) (res : Resolution) :
    (resolveEffects tw res).completedInc =
      (match res with | .executed _ => 1 | _ => 0) := by
  rcases res with _ | _ | race
  · rfl
  · rfl
  · cases race <;> rfl

theorem resolveEffects_timeout_le (tw : taskWrapper) (res : Resolution) :
    (resolveEffects tw res).timeoutInc ≤ (resolveEffects tw res).completedInc := by
  rcases res with _ | _ | race
  · exact Nat.le_refl _
  · exact Nat.le_refl _
  · cases race <;> simp [resolveEffects, processTask]

theorem applySubmission_eq (ep : Bool) (c : Counters) (s : Submission) :
    applySubmission ep c s =
      { wg := c.wg, running := c.running
        completed := c.completed + (if isNonCancelled ep s then 1 else 0)
        timeouts := c.timeouts + submissionTimeout ep s } := by
  unfold applySubmission
  rcases h : (submitTask ep s.tw s.queueAccepts).err with _ | e
  · obtain ⟨ha, hd⟩ := submitTask_success ep s.tw s.queueAccepts h
    have hnc : isNonCancelled ep s =
        (match s.res with | .executed _ => true | _ => false) := by
      simp [isNonCancelled, h]
    simp only [applyEffects, ha, hd, resolveEffects_wgDone, resolveEffects_running,
      resolveEffects_completed, hnc, submissionTimeout, h]
    rcases s.res with _ | _ | race <;>
      simp [Counters.mk.injEq] <;> omega
  · have hf := submitTask_failure ep s.tw s.queueAccepts (by simp [h])
    have hnc : isNonCancelled ep s = false := by
      simp [isNonCancelled, h]
    simp only [hnc, submissionTimeout, h, hf]
    simp [Counters.mk.injEq]

theorem runPool_foldl (ep : Bool) (subs : List Submission) :
    ∀ c : Counters,
      subs.foldl (applySubmission ep) c =
        { wg := c.wg, running := c.running
          completed := c.completed + nonCancelledCount ep subs
          timeouts := c.timeouts + timeoutTotal ep subs } := by
  induction subs with
  | nil => intro c; simp [nonCancelledCount, timeoutTotal]
  | cons s ss ih =>
    intro c
    rw [List.foldl_cons, applySubmission_eq, ih]
    have hnc : nonCancelledCount ep (s :: ss) =
        (if isNonCancelled ep s then 1 else 0) + nonCancelledCount ep ss := by
      simp only [nonCancelledCount, List.filter_cons]
      split <;> simp <;> omega
    have htt : timeoutTotal ep (s :: ss) =
        submissionTimeout ep s + timeoutTotal ep ss := by
      simp [timeoutTotal]
    rw [hnc, htt]
    simp [Counters.mk.injEq]
    omega

theorem submissionTimeout_le (ep : Bool) (s : Submission) :
    submissionTimeout ep s ≤ (if isNonCancelled ep s then 1 else 0) := by
  unfold submissionTimeout
  rcases h : (submitTask ep s.tw s.queueAccepts).err with _ | e
  · have hnc : isNonCancelled ep s =
        (match s.res with | .executed _ => true | _ => false) := by
      simp [isNonCancelled, h]
    rw [hnc]
    rcases s.res with _ | _ | race
    · exact Nat.zero_le _
    · exact Nat.zero_le _
    · cases race <;> simp [resolveEffects, processTask]
  · exact Nat.zero_le _

theorem timeoutTotal_le (ep : Bool) (subs : List Submission) :
    timeoutTotal ep subs ≤ nonCancelledCount ep subs := by
  induction subs with
  | nil => simp [timeoutTotal, nonCancelledCount]
  | cons s ss ih =>
    have h1 : timeoutTotal ep (s :: ss) = submissionTimeout ep s + timeoutTotal ep ss := by
      simp [timeoutTotal]
    have h2 : nonCancelledCount ep (s :: ss) =
        (if isNonCancelled ep s then 1 else 0) + nonCancelledCount ep ss := by
      simp only [nonCancelledCount, List.filter_cons]
      split <;> simp <;> omega
    rw [h1, h2]
    exact Nat.add_le_add (submissionTimeout_le ep s) ih

/-! ### Claim theorems -/

/-- C1: for every pool and every successfully enqueued wrapper, the
completion counter (`p.wg`) is incremented exactly once at enqueue
(`submitTask` performs one `wg.Add(1)` and no `wg.Done()` on success, and
nets zero on a failed submission) and decremented exactly once at the
wrapper's terminal resolution, on every path: normal completion, timeout,
panic recovery, cancellation at the worker's entry check, and
cancellation in the dispatcher. -/
theorem wg_counter_pairing (ep : Bool) (tw : taskWrapper) (qa : Bool) (res : Resolution) :
    ((submitTask ep tw qa).err = none →
      (submitTask ep tw qa).wgAdds = 1 ∧ (submitTask ep tw qa).wgDones = 0) ∧
    ((submitTask ep tw qa).err ≠ none →
      (submitTask ep tw qa).wgAdds = (submitTask ep tw qa).wgDones) ∧
    (resolveEffects tw res).wgDone = 1 := by
  refine ⟨?_, ?_, ?_⟩
  · intro h
    by_cases h1 : tw.ctxFired <;> by_cases h2 : ep <;> by_cases h3 : qa <;>
      simp [submitTask, h1, h2, h3] at h ⊢
  · intro h
    by_cases h1 : tw.ctxFired <;> by_cases h2 : ep <;> by_cases h3 : qa <;>
      simp [submitTask, h1, h2, h3] at h ⊢
  · rcases res with _ | _ | race
    · rfl
    · rfl
    · cases race <;> rfl

/-- Witness for C1 at a concrete pool and wrapper: a FIFO-mode submission
with a live context is accepted with one `wg.Add`, and a normal
completion performs exactly one `wg.Done`. -/
theorem wg_counter_pairing_witness :
    (submitTask false { ctxFired := false } true).wgAdds = 1 ∧
    (resolveEffects { ctxFired := false } (.executed .taskDone)).wgDone = 1 :=
  ⟨((wg_counter_pairing false { ctxFired := false } true (.executed .taskDone)).1 rfl).1,
   (wg_counter_pairing false { ctxFired := false } true (.executed .taskDone)).2.2⟩

/-- C2 counterexample: one submission whose task times out.  `processTask`
increments `completedTasks` unconditionally (pool.go line 503), including
on the timeout path that already incremented `timeoutTasks` (line 486), so
after `Wait()` returns `completedTasks + timeoutTasks = 2` exceeds the one
non-cancelled submission, refuting
`completedTasks + timeoutTasks ≤ non-cancelled submissions`. -/
theorem completed_plus_timeout_over :
    ¬ ((runPool false [{ tw := { timeout := 100 }, res := .executed .ctxTimeout }]).completed +
        (runPool false [{ tw := { timeout := 100 }, res := .executed .ctxTimeout }]).timeouts ≤
      nonCancelledCount false [{ tw := { timeout := 100 }, res := .executed .ctxTimeout }]) := by
  decide

/-- C2 as amended: for every submission sequence, after `Wait()` returns
the running-task gauge is 0 and the completion counter (WaitGroup) is
exactly 0; `completedTasks` equals the number of non-cancelled submissions
and `timeoutTasks ≤ completedTasks` — a timed-out task increments both
counters, so their sum can reach twice the number of non-cancelled
submissions, not at most it. -/
theorem wait_counters (ep : Bool) (subs : List Submission) :
    (runPool ep subs).wg = 0 ∧
    (runPool ep subs).running = 0 ∧
    (runPool ep subs).completed = nonCancelledCount ep subs ∧
    (runPool ep subs).timeouts ≤ (runPool ep subs).completed := by
  have h := runPool_foldl ep subs {}
  unfold runPool
  rw [h]
  refine ⟨rfl, rfl, by simp, ?_⟩
  simpa using timeoutTotal_le ep subs

/-- C4 (code bug in `SubmitWithContext`, pool.go lines 248-255): the
caller-supplied context is discarded — the wrapper is built over
`context.Background()` by `SubmitWithOptions` (line 281) — so submitting
with a pre-cancelled token does not fail with `ErrContextCanceled`: the
result is identical to submitting with a live token, the submission is
accepted (`err = none`), and the completion counter is incremented. -/
theorem submitWithContext_drops_ctx :
    (∀ closed ep qa taskNil : Bool,
      SubmitWithContext closed ep true taskNil qa =
        SubmitWithContext closed ep false taskNil qa) ∧
    SubmitWithContext false false true false true =
      { err := none, wgAdds := 1, wgDones := 0 } ∧
    (SubmitWithContext false false true false true).err ≠ some .contextCanceled := by
  refine ⟨fun _ _ _ _ => rfl, rfl, by decide⟩

/-- C5 counterexample: submitting a callable with one required argument
does not resolve as `ErrInvalidTask`: `callFunc` (pool.go line 518)
returns the distinct arity error `fmt.Errorf("任务函数不应有参数")`
for it, and only non-function values get `ErrInvalidTask` (line 513). -/
theorem one_arg_not_invalid_task :
    callFunc (.resultFn { numIn := 1, outs := [], out1IsError := false, callPanics := none }) =
      .returns none (some .noArgsAllowed) false ∧
    GoErr.noArgsAllowed ≠ GoErr.invalidTask := by
  exact ⟨rfl, by simp⟩

/-- C5 as amended: a callable with at least one required argument is
never invoked and its Future resolves with the arity failure
("task function must not take parameters"), which is distinct from
`InvalidTask`; only a non-function value resolves as `InvalidTask`
(also never invoked). -/
theorem one_arg_arity_error (f : GoFunc) (hn : f.numIn ≠ 0) (tw : taskWrapper)
    (htask : tw.task = .resultFn f) (hfut : tw.hasFuture = true) (v : GoVal) :
    callFunc tw.task = .returns none (some .noArgsAllowed) false ∧
    (processTask tw false .taskDone).futureRes = some (none, some .noArgsAllowed) ∧
    GoErr.noArgsAllowed ≠ GoErr.invalidTask ∧
    callFunc (.notFunc v) = .returns none (some .invalidTask) false := by
  have hcf : callFunc tw.task = .returns none (some .noArgsAllowed) false := by
    rw [htask]
    simp [callFunc, hn]
  refine ⟨hcf, ?_, by simp, rfl⟩
  rw [htask] at hcf
  simp [processTask, runInner, htask, hcf, hfut, futureOutcome]

/-- Witness for C5's amended theorem at a concrete one-argument
function. -/
theorem one_arg_arity_error_witness :
    callFunc (SubmittedTask.resultFn
        { numIn := 1, outs := [.intV 3], out1IsError := false, callPanics := none }) =
      .returns none (some .noArgsAllowed) false ∧
    (processTask
        { task := .resultFn { numIn := 1, outs := [.intV 3], out1IsError := false, callPanics := none }
          hasFuture := true }
        false .taskDone).futureRes = some (none, some .noArgsAllowed) :=
  ⟨(one_arg_arity_error
      { numIn := 1, outs := [.intV 3], out1IsError := false, callPanics := none }
      (by simp)
      { task := .resultFn { numIn := 1, outs := [.intV 3], out1IsError := false, callPanics := none }
        hasFuture := true }
      rfl rfl .nilV).1,
   (one_arg_arity_error
      { numIn := 1, outs := [.intV 3], out1IsError := false, callPanics := none }
      (by simp)
      { task := .resultFn { numIn := 1, outs := [.intV 3], out1IsError := false, callPanics := none }
        hasFuture := true }
      rfl rfl .nilV).2.1⟩

/-- C6: a task with a positive timeout whose execution outlasts it (the
derived context's deadline wins the race) resolves with `ErrTaskTimeout`,
increments the timeout counter exactly once, and its Future — resolved by
`setError(ErrTaskTimeout)` from the pending state — never yields a
successful value afterwards, whatever later resolution attempts or `Get`
environments occur. -/
theorem timeout_task_resolution (tw : taskWrapper) (ht : 0 < tw.timeout)
    (hfut : tw.hasFuture = true) (calls : List ResolveCall) (env : GetEnv) :
    (processTask tw false .ctxTimeout).timeoutInc = 1 ∧
    (processTask tw false .ctxTimeout).futureRes = some (none, some .taskTimeout) ∧
    Get (applyResolves (setError {} .taskTimeout) calls) env = (none, some .taskTimeout) := by
  refine ⟨rfl, ?_, ?_⟩
  · simp [processTask, hfut]
  · have h1 : setError {} .taskTimeout =
        { result := none, err := some .taskTimeout, done := true } := rfl
    rw [h1, applyResolves_done _ rfl calls]
    rfl

/-- Witness for C6 at a concrete wrapper with timeout 100ms. -/
theorem timeout_task_resolution_witness :
    (processTask { timeout := 100, hasFuture := true } false .ctxTimeout).timeoutInc = 1 ∧
    (processTask { timeout := 100, hasFuture := true } false .ctxTimeout).futureRes =
      some (none, some .taskTimeout) ∧
    Get (applyResolves (setError {} .taskTimeout) [.callSetResult (some (.intV 1)) none])
      (.resolvedFirst (some (.intV 1)) none) = (none, some .taskTimeout) :=
  timeout_task_resolution { timeout := 100, hasFuture := true } (by simp) rfl
    [.callSetResult (some (.intV 1)) none] (.resolvedFirst (some (.intV 1)) none)

/-- C7: a task that panics is trapped at the worker boundary
(pool.go lines 459-467): the panic handler receives the raw fault value
exactly once, `completedTasks` is incremented, an attached Future is
resolved with the wrapped panic failure rather than left pending, and the
worker goes on to process every remaining task unchanged. -/
theorem panic_isolated (tw : taskWrapper) (r : Nat)
    (hp : (runInner tw.task).panicked = some r)
    (pre post : List (taskWrapper × Bool × RaceOutcome)) :
    (processTask tw false .taskDone).panicRaw = some r ∧
    (processTask tw false .taskDone).completedInc = 1 ∧
    (tw.hasFuture = true →
      (processTask tw false .taskDone).futureRes = some (none, some (.panicErr r))) ∧
    workerRun (pre ++ (tw, false, .taskDone) :: post) =
      workerRun pre ++ processTask tw false .taskDone :: workerRun post := by
  obtain ⟨hres, herr⟩ := runInner_panicked tw.task r hp
  refine ⟨?_, rfl, ?_, by simp [workerRun]⟩
  · simp [processTask, hp]
  · intro hfut
    simp [processTask, hfut, hres, herr, futureOutcome]

/-- Witness for C7 at a concrete panicking task between two others. -/
theorem panic_isolated_witness :
    (processTask { task := .simple (.panics 7), hasFuture := true } false .taskDone).panicRaw =
      some 7 ∧
    (processTask { task := .simple (.panics 7), hasFuture := true } false .taskDone).futureRes =
      some (none, some (.panicErr 7)) :=
  ⟨(panic_isolated { task := .simple (.panics 7), hasFuture := true } 7 rfl [] []).1,
   (panic_isolated { task := .simple (.panics 7), hasFuture := true } 7 rfl [] []).2.2.1 rfl⟩

/-- C8: a Future resolves exactly once: from the pending state the first
`setResult`/`setError` call fixes the stored result and error and marks
it done, and every later sequence of resolution attempts leaves the state
untouched. -/
theorem future_resolve_once (f : futureImpl) (hf : f.done = false)
    (r : Option GoVal) (e : Option GoErr) (calls : List ResolveCall) :
    (setResult f r e).result = r ∧ (setResult f r e).err = e ∧
    (setResult f r e).done = true ∧
    applyResolves (setResult f r e) calls = setResult f r e ∧
    (∀ e' : GoErr, setError (setResult f r e) e' = setResult f r e) := by
  rw [setResult_pending f hf r e]
  refine ⟨rfl, rfl, rfl, applyResolves_done _ rfl calls, fun e' => rfl⟩

/-- Witness for C8: a fresh pending future resolved with a value ignores
a later conflicting `setError`. -/
theorem future_resolve_once_witness :
    (setResult {} (some (.intV 5)) none).result = some (.intV 5) ∧
    applyResolves (setResult {} (some (.intV 5)) none) [.callSetError .taskTimeout] =
      setResult {} (some (.intV 5)) none :=
  ⟨(future_resolve_once {} rfl (some (.intV 5)) none [.callSetError .taskTimeout]).1,
   (future_resolve_once {} rfl (some (.intV 5)) none [.callSetError .taskTimeout]).2.2.2.1⟩

/-- C9: `Get` on an already-resolved Future returns the stored outcome
immediately for every environment — even one whose token has already
fired; on a pending Future it returns the token's cancellation reason
when the token fires before resolution (and the resolution values when
resolution wins); and `GetWithTimeout(d)` is exactly `Get` under the
token that the call derives from duration `d`. -/
theorem future_get_semantics (f : futureImpl) (env : GetEnv) (d : Nat)
    (tenv : GetTimeoutEnv) :
    (f.done = true → Get f env = (f.result, f.err)) ∧
    (f.done = false →
      (∀ cause, Get f (.ctxFirst cause) = (none, some cause.toErr)) ∧
      (∀ r e, Get f (.resolvedFirst r e) = (r, e))) ∧
    GetWithTimeout f d tenv = Get f tenv.toGetEnv := by
  refine ⟨?_, ?_, rfl⟩
  · intro h
    simp [Get, h]
  · intro h
    refine ⟨fun cause => by simp [Get, h], fun r e => ?_⟩
    simp [Get, h, setResult]

theorem getD_set_of (l : List (Option taskWrapper)) (i k : Nat) (v : Option taskWrapper) :
    (l.set i v).getD k none = if i = k ∧ k < l.length then v else l.getD k none := by
  by_cases hk : k < l.length
  · rw [List.getD_eq_getElem _ _ (by simpa using hk), List.getElem_set]
    split
    · simp_all
    · rw [List.getD_eq_getElem _ _ hk]
      simp_all
  · rw [List.getD_eq_default _ _ (by simpa using Nat.le_of_not_lt hk),
      List.getD_eq_default _ _ (Nat.le_of_not_lt hk)]
    simp [hk]

theorem getD_placeAt_lt (l : List (Option taskWrapper)) (i k : Nat)
    (v : Option taskWrapper) (hk : k < l.length) (hne : k ≠ i) :
    (placeAt l i v).getD k none = l.getD k none := by
  unfold placeAt
  split
  · rw [getD_set_of, if_neg]
    rintro ⟨h, _⟩
    exact hne h.symm
  · rw [List.getD_append _ _ _ _ hk]

theorem getD_placeAt_self (l : List (Option taskWrapper)) (i : Nat)
    (v : Option taskWrapper) (hi : i ≤ l.length) :
    (placeAt l i v).getD i none = v := by
  unfold placeAt
  split
  · rw [getD_set_of]
    simp_all
  · have hlen : l.length = i := by omega
    rw [List.getD_append_right _ _ _ _ (by omega)]
    simp [hlen]

theorem length_placeAt (l : List (Option taskWrapper)) (i : Nat) (v : Option taskWrapper) :
    (placeAt l i v).length = if i < l.length then l.length else l.length + 1 := by
  unfold placeAt
  split <;> simp_all

theorem Push_pqWF (pq : PQ) (x : taskWrapper) (hwf : pqWF pq) : pqWF (Push pq x) := by
  show pq.n + 1 ≤ (placeAt pq.backing pq.n (some { x with index := (pq.n : Int) })).length
  rw [length_placeAt]
  unfold pqWF at hwf
  split <;> omega

theorem Push_indexInv (pq : PQ) (x : taskWrapper) (hwf : pqWF pq) (hinv : indexInv pq) :
    indexInv (Push pq x) := by
  intro i hi
  unfold Push PQ.get
  by_cases he : i = pq.n
  · subst he
    simp only []
    rw [getD_placeAt_self _ _ _ hwf]
    simp
  · have hi' : i < pq.n := by
      simp only [Push] at hi
      omega
    obtain ⟨h1, h2⟩ := hinv i hi'
    unfold PQ.get at h2
    simp only []
    rw [getD_placeAt_lt _ _ _ _ (Nat.lt_of_lt_of_le hi' hwf) (by omega)]
    exact ⟨h1, h2⟩

theorem length_Swap (pq : PQ) (i j : Nat) :
    (Swap pq i j).backing.length = pq.backing.length := by
  simp [Swap]

theorem Swap_pqWF (pq : PQ) (i j : Nat) (hwf : pqWF pq) : pqWF (Swap pq i j) := by
  unfold pqWF at *
  rw [length_Swap]
  exact hwf

theorem getD_Swap (pq : PQ) (i j k : Nat) (hi : i < pq.backing.length)
    (hj : j < pq.backing.length) :
    (Swap pq i j).backing.getD k none =
      if j = k then some { pq.get i with index := (j : Int) }
      else if i = k then some { pq.get j with index := (i : Int) }
      else pq.backing.getD k none := by
  unfold Swap
  simp only []
  rw [getD_set_of, getD_set_of]
  by_cases h1 : j = k
  · simp [h1, hj, h1 ▸ hj]
  · by_cases h2 : i = k
    · simp [h1, h2, h2 ▸ hi]
    · simp [h1, h2]

theorem Swap_indexInv (pq : PQ) (i j : Nat) (hi : i < pq.n) (hj : j < pq.n)
    (hwf : pqWF pq) (hinv : indexInv pq) : indexInv (Swap pq i j) := by
  intro k hk
  have hk' : k < pq.n := hk
  have hil : i < pq.backing.length := Nat.lt_of_lt_of_le hi hwf
  have hjl : j < pq.backing.length := Nat.lt_of_lt_of_le hj hwf
  unfold PQ.get
  rw [getD_Swap pq i j k hil hjl]
  by_cases h1 : j = k
  · simp [h1]
  · by_cases h2 : i = k
    · simp [h1, h2]
    · simp only [if_neg h1, if_neg h2]
      exact hinv k hk'

theorem Pop_spec (pq : PQ) (hn : 0 < pq.n) (hwf : pqWF pq) (hinv : indexInv pq) :
    pqWF (Pop pq).2 ∧ indexInv (Pop pq).2 ∧ (Pop pq).1.index = -1 ∧
      (Pop pq).2.backing.getD (pq.n - 1) none = none := by
  refine ⟨?_, ?_, rfl, ?_⟩
  · unfold pqWF Pop at *
    simp only [List.length_set]
    omega
  · intro k hk
    have hk' : k < pq.n - 1 := hk
    unfold Pop PQ.get
    simp only []
    rw [getD_set_of]
    simp only [if_neg (by omega : ¬ (pq.n - 1 = k ∧ k < pq.backing.length))]
    exact hinv k (by omega)
  · unfold Pop
    simp only []
    rw [getD_set_of]
    simp [Nat.lt_of_lt_of_le (by omega : pq.n - 1 < pq.n) hwf]

theorem applyOp_inv (st : PQ × List taskWrapper) (op : PQOp)
    (h1 : pqWF st.1) (h2 : indexInv st.1) (h3 : ∀ w ∈ st.2, w.index = -1) :
    pqWF (applyOp st op).1 ∧ indexInv (applyOp st op).1 ∧
      ∀ w ∈ (applyOp st op).2, w.index = -1 := by
  cases op with
  | pushOp x =>
    exact ⟨Push_pqWF st.1 x h1, Push_indexInv st.1 x h1 h2, h3⟩
  | popOp =>
    by_cases hn : 0 < st.1.n
    · obtain ⟨p1, p2, p3, _⟩ := Pop_spec st.1 hn h1 h2
      have hred : applyOp st .popOp = ((Pop st.1).2, st.2 ++ [(Pop st.1).1]) := by
        simp only [applyOp, if_pos hn]
      rw [hred]
      refine ⟨p1, p2, ?_⟩
      intro w hw
      simp only [List.mem_append, List.mem_singleton] at hw
      rcases hw with hw | hw
      · exact h3 w hw
      · rw [hw]
        exact p3
    · have hred : applyOp st .popOp = st := by
        simp only [applyOp, if_neg hn]
      rw [hred]
      exact ⟨h1, h2, h3⟩
  | swapOp i j =>
    by_cases hij : i < st.1.n ∧ j < st.1.n
    · have hred : applyOp st (.swapOp i j) = (Swap st.1 i j, st.2) := by
        simp only [applyOp, if_pos hij]
      rw [hred]
      exact ⟨Swap_pqWF st.1 i j h1, Swap_indexInv st.1 i j hij.1 hij.2 h1 h2, h3⟩
    · have hred : applyOp st (.swapOp i j) = st := by
        simp only [applyOp, if_neg hij]
      rw [hred]
      exact ⟨h1, h2, h3⟩

theorem applyOps_inv (ops : List PQOp) :
    pqWF (applyOps ops).1 ∧ indexInv (applyOps ops).1 ∧
      ∀ w ∈ (applyOps ops).2, w.index = -1 := by
  unfold applyOps
  have base : pqWF (PQ.empty, ([] : List taskWrapper)).1 ∧
      indexInv (PQ.empty, ([] : List taskWrapper)).1 ∧
      ∀ w ∈ (PQ.empty, ([] : List taskWrapper)).2, w.index = -1 := by
    refine ⟨Nat.le_refl 0, ?_, ?_⟩
    · intro i hi
      exact absurd hi (by simp [PQ.empty])
    · intro w hw
      simp at hw
  generalize hst : ((PQ.empty, ([] : List taskWrapper)) : PQ × List taskWrapper) = st
  rw [hst] at base
  clear hst
  induction ops generalizing st with
  | nil => exact base
  | cons op rest ih =>
    rw [List.foldl_cons]
    exact ih _ (applyOp_inv st op base.1 base.2.1 base.2.2)

/-- Witness for C9: a resolved future returns its value under a fired
token, and a pending future returns the token's deadline error. -/
theorem future_get_semantics_witness :
    Get { result := some (.intV 2), err := none, done := true } (.ctxFirst .canceled) =
      (some (.intV 2), none) ∧
    Get {} (.ctxFirst .deadlineExceeded) = (none, some .ctxDeadlineExceeded) ∧
    GetWithTimeout {} 50 .timedOut = Get {} (GetTimeoutEnv.timedOut.toGetEnv) :=
  ⟨(future_get_semantics { result := some (.intV 2), err := none, done := true }
      (.ctxFirst .canceled) 50 .timedOut).1 rfl,
   ((future_get_semantics {} (.ctxFirst .deadlineExceeded) 50 .timedOut).2.1 rfl).1
      .deadlineExceeded,
   (future_get_semantics {} (.ctxFirst .deadlineExceeded) 50 .timedOut).2.2⟩

theorem ltW_iff (a b : taskWrapper) :
    ltW a b = true ↔
      (b.priority < a.priority ∨ (a.priority = b.priority ∧ a.added < b.added)) := by
  unfold ltW
  by_cases h : a.priority = b.priority <;> simp [h] <;> omega

theorem ltW_false_iff (a b : taskWrapper) :
    ltW a b = false ↔
      ¬ (b.priority < a.priority ∨ (a.priority = b.priority ∧ a.added < b.added)) := by
  rw [← Bool.not_eq_true, ltW_iff]

theorem ltW_irrefl (a : taskWrapper) : ltW a a = false := by
  rw [ltW_false_iff]
  omega

theorem ltW_asymm {a b : taskWrapper} (h : ltW a b = true) : ltW b a = false := by
  rw [ltW_iff] at h
  rw [ltW_false_iff]
  omega

theorem ltW_neg_trans {a b c : taskWrapper} (h1 : ltW b a = false) (h2 : ltW c b = false) :
    ltW c a = false := by
  rw [ltW_false_iff] at h1 h2 ⊢
  omega

theorem ltW_contra {a b c : taskWrapper} (h1 : ltW a c = false) (h2 : ltW b c = true) :
    ltW a b = false := by
  rw [ltW_false_iff] at h1 ⊢
  rw [ltW_iff] at h2
  omega

theorem ltW_index_left (a b : taskWrapper) (z : Int) :
    ltW { a with index := z } b = ltW a b := rfl

theorem ltW_index_right (a b : taskWrapper) (z : Int) :
    ltW a { b with index := z } = ltW a b := rfl

theorem Swap_n (pq : PQ) (i j : Nat) : (Swap pq i j).n = pq.n := rfl

theorem get_Swap (pq : PQ) (i j k : Nat) (hi : i < pq.backing.length)
    (hj : j < pq.backing.length) :
    (Swap pq i j).get k =
      if j = k then { pq.get i with index := (j : Int) }
      else if i = k then { pq.get j with index := (i : Int) }
      else pq.get k := by
  unfold PQ.get
  rw [getD_Swap pq i j k hi hj]
  split
  · simp [PQ.get]
  · split
    · simp [PQ.get]
    · rfl

theorem get_Push_lt (pq : PQ) (x : taskWrapper) (k : Nat)
    (hk : k < pq.backing.length) (hne : k ≠ pq.n) :
    (Push pq x).get k = pq.get k := by
  unfold PQ.get Push
  simp only []
  rw [getD_placeAt_lt _ _ _ _ hk hne]

theorem get_Push_self (pq : PQ) (x : taskWrapper) (hwf : pqWF pq) :
    (Push pq x).get pq.n = { x with index := (pq.n : Int) } := by
  unfold PQ.get Push
  simp only []
  rw [getD_placeAt_self _ _ _ hwf]
  rfl

theorem get_Pop (pq : PQ) (k : Nat) (hk : k ≠ pq.n - 1) :
    (Pop pq).2.get k = pq.get k := by
  unfold PQ.get Pop
  simp only []
  rw [getD_set_of, if_neg]
  rintro ⟨h, _⟩
  exact hk h.symm

theorem upPre_swap (pq : PQ) (j : Nat) (hwf : pqWF pq) (hj : j < pq.n)
    (hne : (j - 1) / 2 ≠ j) (hlt : ltW (pq.get j) (pq.get ((j - 1) / 2)) = true)
    (hpre : upPre pq j) : upPre (Swap pq ((j - 1) / 2) j) ((j - 1) / 2) := by
  have hj0 : 0 < j := by omega
  have hij : (j - 1) / 2 < j := by omega
  have hlen : pq.n ≤ pq.backing.length := hwf
  have hiL : (j - 1) / 2 < pq.backing.length := by omega
  have hjL : j < pq.backing.length := by omega
  have gj : (Swap pq ((j - 1) / 2) j).get j =
      { pq.get ((j - 1) / 2) with index := (j : Int) } := by
    rw [get_Swap _ _ _ _ hiL hjL, if_pos rfl]
  have gi : (Swap pq ((j - 1) / 2) j).get ((j - 1) / 2) =
      { pq.get j with index := (((j - 1) / 2 : Nat) : Int) } := by
    rw [get_Swap _ _ _ _ hiL hjL, if_neg (by omega), if_pos rfl]
  have gk : ∀ k, k ≠ (j - 1) / 2 → k ≠ j → (Swap pq ((j - 1) / 2) j).get k = pq.get k := by
    intro k h1 h2
    rw [get_Swap _ _ _ _ hiL hjL, if_neg (fun h => h2 h.symm), if_neg (fun h => h1 h.symm)]
  constructor
  · intro k hk h0 hki
    rw [Swap_n] at hk
    by_cases hkj : k = j
    · subst hkj
      rw [gj, gi, ltW_index_left, ltW_index_right]
      exact ltW_asymm hlt
    · rw [gk k hki hkj]
      by_cases hpj : (k - 1) / 2 = j
      · rw [hpj, gj, ltW_index_right]
        exact hpre.2 hj0 k hk hpj
      · by_cases hpi : (k - 1) / 2 = (j - 1) / 2
        · rw [hpi, gi, ltW_index_right]
          have h1 : ltW (pq.get k) (pq.get ((j - 1) / 2)) = false := by
            have h2 := hpre.1 k hk h0 hkj
            rw [hpi] at h2
            exact h2
          exact ltW_contra h1 hlt
        · rw [gk _ hpi hpj]
          exact hpre.1 k hk h0 hkj
  · intro hi0 c hc hpc
    rw [Swap_n] at hc
    have hg1 : ((j - 1) / 2 - 1) / 2 ≠ (j - 1) / 2 := by omega
    have hg2 : ((j - 1) / 2 - 1) / 2 ≠ j := by omega
    rw [gk _ hg1 hg2]
    by_cases hcj : c = j
    · rw [hcj, gj, ltW_index_left]
      exact hpre.1 ((j - 1) / 2) (by omega) hi0 hne
    · have hci : c ≠ (j - 1) / 2 := by omega
      rw [gk _ hci hcj]
      have h0c : 0 < c := by omega
      have h1 : ltW (pq.get c) (pq.get ((j - 1) / 2)) = false := by
        have h2 := hpre.1 c hc h0c hcj
        rw [hpc] at h2
        exact h2
      have h2 : ltW (pq.get ((j - 1) / 2)) (pq.get (((j - 1) / 2 - 1) / 2)) = false :=
        hpre.1 ((j - 1) / 2) (by omega) hi0 hne
      exact ltW_neg_trans h2 h1

theorem upAux_main (fuel : Nat) :
    ∀ (pq : PQ) (j : Nat), pqWF pq → j < pq.n → j ≤ fuel → upPre pq j →
      heapInv (upAux pq j fuel) ∧ (upAux pq j fuel).n = pq.n ∧
        (upAux pq j fuel).backing.length = pq.backing.length := by
  induction fuel with
  | zero =>
    intro pq j hwf hj hfuel hpre
    refine ⟨?_, rfl, rfl⟩
    intro k hk h0
    exact hpre.1 k hk h0 (by omega)
  | succ fuel ih =>
    intro pq j hwf hj hfuel hpre
    have hred : upAux pq j (fuel + 1) =
        if (j - 1) / 2 = j ∨ Less pq j ((j - 1) / 2) = false then pq
        else upAux (Swap pq ((j - 1) / 2) j) ((j - 1) / 2) fuel := rfl
    rw [hred]
    by_cases hguard : (j - 1) / 2 = j ∨ Less pq j ((j - 1) / 2) = false
    · rw [if_pos hguard]
      refine ⟨?_, rfl, rfl⟩
      intro k hk h0
      by_cases hkj : k = j
      · subst hkj
        rcases hguard with h | h
        · omega
        · simpa [Less] using h
      · exact hpre.1 k hk h0 hkj
    · rw [if_neg hguard]
      have hne : (j - 1) / 2 ≠ j := fun h => hguard (Or.inl h)
      have hlt : ltW (pq.get j) (pq.get ((j - 1) / 2)) = true := by
        rcases h : Less pq j ((j - 1) / 2)
        · exact absurd (Or.inr h) hguard
        · simpa [Less] using h
      have hj0 : 0 < j := by omega
      obtain ⟨r1, r2, r3⟩ := ih (Swap pq ((j - 1) / 2) j) ((j - 1) / 2)
        (Swap_pqWF pq _ _ hwf)
        (by rw [Swap_n]; omega)
        (by omega)
        (upPre_swap pq j hwf hj hne hlt hpre)
      refine ⟨r1, ?_, ?_⟩
      · rw [r2, Swap_n]
      · rw [r3, length_Swap]

theorem minChild (pq : PQ) (i m s : Nat) (h1 : 2 * i + 1 < m) (hs : s < m) (h0 : 0 < s)
    (hps : (s - 1) / 2 = i) :
    s = downJ pq i m ∨ ltW (pq.get s) (pq.get (downJ pq i m)) = false := by
  have hs' : s = 2 * i + 1 ∨ s = 2 * i + 2 := by omega
  unfold downJ
  by_cases hc : 2 * i + 2 < m ∧ Less pq (2 * i + 2) (2 * i + 1) = true
  · rw [if_pos hc]
    rcases hs' with h | h
    · right
      rw [h]
      exact ltW_asymm (by simpa [Less] using hc.2)
    · left
      exact h
  · rw [if_neg hc]
    rcases hs' with h | h
    · left
      exact h
    · right
      have hin : 2 * i + 2 < m := by omega
      have hlf : Less pq (2 * i + 2) (2 * i + 1) = false := by
        rcases hb : Less pq (2 * i + 2) (2 * i + 1)
        · rfl
        · exact absurd ⟨hin, hb⟩ hc
      rw [h]
      simpa [Less] using hlf

theorem downPre_swap (pq : PQ) (i m : Nat) (hwf : pqWF pq) (hm : m ≤ pq.n)
    (h1 : 2 * i + 1 < m) (hguard : ltW (pq.get (downJ pq i m)) (pq.get i) = true)
    (hpre : downPre pq i m) :
    downPre (Swap pq i (downJ pq i m)) (downJ pq i m) m := by
  have hji : i < downJ pq i m := by unfold downJ; split <;> omega
  have hjm : downJ pq i m < m := by unfold downJ; split <;> omega
  have hpj : (downJ pq i m - 1) / 2 = i := by unfold downJ; split <;> omega
  have hlen : pq.n ≤ pq.backing.length := hwf
  have hiL : i < pq.backing.length := by omega
  have hjL : downJ pq i m < pq.backing.length := by omega
  have gj : (Swap pq i (downJ pq i m)).get (downJ pq i m) =
      { pq.get i with index := ((downJ pq i m : Nat) : Int) } := by
    rw [get_Swap _ _ _ _ hiL hjL, if_pos rfl]
  have gi : (Swap pq i (downJ pq i m)).get i =
      { pq.get (downJ pq i m) with index := (i : Int) } := by
    rw [get_Swap _ _ _ _ hiL hjL, if_neg (by omega), if_pos rfl]
  have gk : ∀ k, k ≠ i → k ≠ downJ pq i m →
      (Swap pq i (downJ pq i m)).get k = pq.get k := by
    intro k hk1 hk2
    rw [get_Swap _ _ _ _ hiL hjL, if_neg (fun h => hk2 h.symm), if_neg (fun h => hk1 h.symm)]
  constructor
  · intro k hk h0 hkpj
    by_cases hkj : k = downJ pq i m
    · rw [hkj, hpj, gj, gi, ltW_index_left, ltW_index_right]
      exact ltW_asymm hguard
    · by_cases hki : k = i
      · rw [hki] at h0 ⊢
        have hp1 : (i - 1) / 2 ≠ i := by omega
        have hp2 : (i - 1) / 2 ≠ downJ pq i m := by omega
        rw [gi, gk _ hp1 hp2, ltW_index_left]
        exact hpre.2 h0 (downJ pq i m) hjm hpj
      · rw [gk k hki hkj]
        by_cases hpi : (k - 1) / 2 = i
        · rcases minChild pq i m k h1 hk h0 hpi with he | hlt2
          · exact absurd he hkj
          · rw [hpi, gi, ltW_index_right]
            exact hlt2
        · rw [gk _ hpi hkpj]
          exact hpre.1 k hk h0 hpi
  · intro hj0 c hc hpc
    rw [hpj, gi]
    have hci : c ≠ i := by omega
    have hcj : c ≠ downJ pq i m := by omega
    rw [gk c hci hcj, ltW_index_right]
    have h0c : 0 < c := by omega
    have hcne : (c - 1) / 2 ≠ i := by omega
    have h2 := hpre.1 c hc h0c hcne
    rw [hpc] at h2
    exact h2

theorem downAux_main (fuel : Nat) :
    ∀ (pq : PQ) (i m : Nat), pqWF pq → m ≤ pq.n → m - i ≤ fuel → downPre pq i m →
      heapInvUpTo (downAux pq i m fuel) m ∧ (downAux pq i m fuel).n = pq.n ∧
        (downAux pq i m fuel).backing.length = pq.backing.length ∧
        (∀ k, m ≤ k → (downAux pq i m fuel).get k = pq.get k) := by
  induction fuel with
  | zero =>
    intro pq i m hwf hm hfuel hpre
    refine ⟨?_, rfl, rfl, fun k _ => rfl⟩
    intro k hk h0
    apply hpre.1 k hk h0
    omega
  | succ fuel ih =>
    intro pq i m hwf hm hfuel hpre
    have hred : downAux pq i m (fuel + 1) =
        if m ≤ 2 * i + 1 then pq
        else if Less pq (downJ pq i m) i = false then pq
        else downAux (Swap pq i (downJ pq i m)) (downJ pq i m) m fuel := rfl
    rw [hred]
    by_cases hnc : m ≤ 2 * i + 1
    · rw [if_pos hnc]
      refine ⟨?_, rfl, rfl, fun k _ => rfl⟩
      intro k hk h0
      apply hpre.1 k hk h0
      omega
    · rw [if_neg hnc]
      by_cases hstop : Less pq (downJ pq i m) i = false
      · rw [if_pos hstop]
        refine ⟨?_, rfl, rfl, fun k _ => rfl⟩
        intro k hk h0
        by_cases hpi : (k - 1) / 2 = i
        · rcases minChild pq i m k (by omega) hk h0 hpi with he | hlt2
          · rw [he] at hpi ⊢
            rw [hpi]
            simpa [Less] using hstop
          · rw [hpi]
            exact ltW_neg_trans (by simpa [Less] using hstop) hlt2
        · exact hpre.1 k hk h0 hpi
      · rw [if_neg hstop]
        have hguard : ltW (pq.get (downJ pq i m)) (pq.get i) = true := by
          rcases h : Less pq (downJ pq i m) i
          · exact absurd h hstop
          · simpa [Less] using h
        have hji : i < downJ pq i m := by unfold downJ; split <;> omega
        have hjm : downJ pq i m < m := by unfold downJ; split <;> omega
        obtain ⟨r1, r2, r3, r4⟩ := ih (Swap pq i (downJ pq i m)) (downJ pq i m) m
          (Swap_pqWF pq _ _ hwf) (by rw [Swap_n]; exact hm) (by omega)
          (downPre_swap pq i m hwf hm (by omega) hguard hpre)
        have hlen : pq.n ≤ pq.backing.length := hwf
        refine ⟨r1, by rw [r2, Swap_n], by rw [r3, length_Swap], ?_⟩
        intro k hk
        rw [r4 k hk, get_Swap _ _ _ _ (by omega) (by omega), if_neg (by omega),
          if_neg (by omega)]

theorem root_min (pq : PQ) (hinv : heapInv pq) :
    ∀ k, k < pq.n → ltW (pq.get k) (pq.get 0) = false := by
  intro k
  induction k using Nat.strong_induction_on with
  | _ k ih =>
    intro hk
    rcases Nat.eq_zero_or_pos k with h0 | h0
    · rw [h0]
      exact ltW_irrefl _
    · have hplt : (k - 1) / 2 < k := by omega
      have e1 : ltW (pq.get k) (pq.get ((k - 1) / 2)) = false := hinv k hk h0
      have e2 : ltW (pq.get ((k - 1) / 2)) (pq.get 0) = false := ih _ hplt (by omega)
      exact ltW_neg_trans e2 e1

theorem heapPush_inv (pq : PQ) (x : taskWrapper) (hwf : pqWF pq) (hinv : heapInv pq) :
    heapInv (heapPush pq x) ∧ pqWF (heapPush pq x) ∧ (heapPush pq x).n = pq.n + 1 := by
  have hlen : pq.n ≤ pq.backing.length := hwf
  have hwf' : pqWF (Push pq x) := Push_pqWF pq x hwf
  have hpre : upPre (Push pq x) pq.n := by
    constructor
    · intro k hk h0 hkj
      have hk1 : k < pq.n + 1 := hk
      have hkn : k < pq.n := by omega
      have e1 : (Push pq x).get k = pq.get k :=
        get_Push_lt pq x k (by omega) (by omega)
      have e2 : (Push pq x).get ((k - 1) / 2) = pq.get ((k - 1) / 2) :=
        get_Push_lt pq x _ (by omega) (by omega)
      rw [e1, e2]
      exact hinv k hkn h0
    · intro hj0 c hc hpc
      exfalso
      have hc1 : c < pq.n + 1 := hc
      omega
  have hred : heapPush pq x = upAux (Push pq x) pq.n pq.n := rfl
  obtain ⟨r1, r2, r3⟩ := upAux_main pq.n (Push pq x) pq.n hwf'
    (Nat.lt_succ_self pq.n) (Nat.le_refl pq.n) hpre
  rw [hred]
  refine ⟨r1, ?_, ?_⟩
  · show (upAux (Push pq x) pq.n pq.n).n ≤ (upAux (Push pq x) pq.n pq.n).backing.length
    have e1 : (Push pq x).n = pq.n + 1 := rfl
    have e2 : (Push pq x).backing.length =
        if pq.n < pq.backing.length then pq.backing.length else pq.backing.length + 1 :=
      length_placeAt _ _ _
    rw [r2, r3, e1, e2]
    split <;> omega
  · rw [r2]
    rfl

theorem heapPop_inv (pq : PQ) (hwf : pqWF pq) (hinv : heapInv pq) (hn : 0 < pq.n) :
    heapInv (heapPop pq).2 ∧ pqWF (heapPop pq).2 ∧ (heapPop pq).2.n = pq.n - 1 ∧
      ∀ k, k < pq.n → ltW (pq.get k) ((heapPop pq).1) = false := by
  have hlen : pq.n ≤ pq.backing.length := hwf
  have h0L : 0 < pq.backing.length := by omega
  have hmL : pq.n - 1 < pq.backing.length := by omega
  have hpre : downPre (Swap pq 0 (pq.n - 1)) 0 (pq.n - 1) := by
    constructor
    · intro k hk h0 hkp
      have e1 : (Swap pq 0 (pq.n - 1)).get k = pq.get k := by
        rw [get_Swap _ _ _ _ h0L hmL, if_neg (by omega), if_neg (by omega)]
      have e2 : (Swap pq 0 (pq.n - 1)).get ((k - 1) / 2) = pq.get ((k - 1) / 2) := by
        rw [get_Swap _ _ _ _ h0L hmL, if_neg (by omega), if_neg (by omega)]
      rw [e1, e2]
      exact hinv k (by omega) h0
    · intro h
      omega
  obtain ⟨d1, d2, d3, d4⟩ := downAux_main (pq.n - 1) (Swap pq 0 (pq.n - 1)) 0 (pq.n - 1)
    (Swap_pqWF pq 0 (pq.n - 1) hwf) (by rw [Swap_n]; omega) (by omega) hpre
  set q := downAux (Swap pq 0 (pq.n - 1)) 0 (pq.n - 1) (pq.n - 1) with hq
  have hqn : q.n = pq.n := by rw [d2, Swap_n]
  have hqL : q.backing.length = pq.backing.length := by rw [d3, length_Swap]
  have hPop : heapPop pq = Pop q := by
    rw [hq]
    exact rfl
  have en : (Pop q).2.n = q.n - 1 := rfl
  refine ⟨?_, ?_, ?_, ?_⟩
  · rw [hPop]
    intro k hk h0
    have hk0 : k < (Pop q).2.n := hk
    have hk' : k < pq.n - 1 := by omega
    have e1 : (Pop q).2.get k = q.get k := get_Pop q k (by omega)
    have e2 : (Pop q).2.get ((k - 1) / 2) = q.get ((k - 1) / 2) := get_Pop q _ (by omega)
    rw [e1, e2]
    exact d1 k hk' h0
  · rw [hPop]
    show (Pop q).2.n ≤ (Pop q).2.backing.length
    have e2 : (Pop q).2.backing.length = q.backing.length := by
      show (q.backing.set (q.n - 1) none).length = q.backing.length
      simp
    omega
  · rw [hPop, en]
    omega
  · intro k hk
    rw [hPop]
    have e0 : (Pop q).1 = { q.get (q.n - 1) with index := -1 } := rfl
    have e1 : q.get (q.n - 1) = q.get (pq.n - 1) := by rw [hqn]
    have e2 : q.get (pq.n - 1) = (Swap pq 0 (pq.n - 1)).get (pq.n - 1) :=
      d4 _ (Nat.le_refl _)
    have e3 : (Swap pq 0 (pq.n - 1)).get (pq.n - 1) =
        { pq.get 0 with index := ((pq.n - 1 : Nat) : Int) } := by
      rw [get_Swap _ _ _ _ h0L hmL, if_pos rfl]
    have ecmp : ltW (pq.get k) ((Pop q).1) = ltW (pq.get k) (pq.get 0) := by
      rw [e0, e1, e2, e3]
      exact rfl
    rw [ecmp]
    exact root_min pq hinv k hk

/-- C3: in priority mode, pending tasks are ordered by the total order
(priority weight descending, submission time ascending): the comparator
`Less` realises exactly that lexicographic order; `heap.Push` and
`heap.Pop` preserve the heap shape, and the wrapper returned by
`heap.Pop` — what the dispatcher executes next — is dominated by no
pending wrapper (none has strictly higher priority, nor equal priority
with an earlier submission time); and for the submission order
[Low, High, Normal, High] at times 1, 2, 3, 4, the dispatch order is
[High (t=2), High (t=4), Normal (t=3), Low (t=1)]. -/
theorem priority_total_order :
    (∀ a b : taskWrapper, ltW a b = true ↔
        (b.priority < a.priority ∨ (a.priority = b.priority ∧ a.added < b.added))) ∧
    (∀ pq : PQ, pqWF pq → heapInv pq →
      (∀ x, heapInv (heapPush pq x) ∧ pqWF (heapPush pq x)) ∧
      (0 < pq.n →
        (∀ k, k < pq.n → ltW (pq.get k) ((heapPop pq).1) = false) ∧
        heapInv (heapPop pq).2 ∧ pqWF (heapPop pq).2)) ∧
    (popAll (pushAll PQ.empty exSubmitted) 4).map (fun w => (w.priority, w.added)) =
      [(PriorityHigh, 2), (PriorityHigh, 4), (PriorityNormal, 3), (PriorityLow, 1)] := by
  refine ⟨ltW_iff, ?_, by decide⟩
  intro pq hwf hinv
  refine ⟨fun x => ⟨(heapPush_inv pq x hwf hinv).1, (heapPush_inv pq x hwf hinv).2.1⟩, ?_⟩
  intro hn
  obtain ⟨a1, a2, _, a4⟩ := heapPop_inv pq hwf hinv hn
  exact ⟨a4, a1, a2⟩

/-- Witness for C3 on the concrete four-element queue: it is well formed,
satisfies the heap shape, and no pending wrapper dominates the one
`heap.Pop` hands to the dispatcher. -/
theorem priority_total_order_witness :
    pqWF exQueue ∧ heapInv exQueue ∧
    (∀ k, k < exQueue.n → ltW (exQueue.get k) ((heapPop exQueue).1) = false) := by
  refine ⟨by decide, by decide, ?_⟩
  exact ((priority_total_order.2.1 exQueue (by decide) (by decide)).2 (by decide)).1

/-- C10: under any sequence of `Push`, `Pop` and `Swap` operations (as
invoked by `container/heap`) starting from the empty queue, every wrapper
stored in the queue has its `index` field equal to its current position
and every cell below the live length is occupied; every popped wrapper
carries `index = -1`; and `Pop` clears the vacated backing cell. -/
theorem pq_index_discipline (ops : List PQOp) (pq : PQ)
    (hwf : pqWF pq) (hinv : indexInv pq) (hn : 0 < pq.n) :
    (pqWF (applyOps ops).1 ∧ indexInv (applyOps ops).1 ∧
      ∀ w ∈ (applyOps ops).2, w.index = -1) ∧
    (Pop pq).1.index = -1 ∧
    (Pop pq).2.backing.getD (pq.n - 1) none = none := by
  refine ⟨applyOps_inv ops, ?_, ?_⟩
  · exact (Pop_spec pq hn hwf hinv).2.2.1
  · exact (Pop_spec pq hn hwf hinv).2.2.2

/-- Witness for C10 on a concrete operation sequence and a concrete
one-element queue. -/
theorem pq_index_discipline_witness :
    (∀ w ∈ (applyOps [.pushOp {}, .pushOp { added := 1 }, .swapOp 0 1, .popOp]).2,
      w.index = -1) ∧
    (Pop (Push PQ.empty {})).1.index = -1 ∧
    (Pop (Push PQ.empty {})).2.backing.getD ((Push PQ.empty {}).n - 1) none = none :=
  ⟨(pq_index_discipline [.pushOp {}, .pushOp { added := 1 }, .swapOp 0 1, .popOp]
      (Push PQ.empty {}) (by decide) (by decide) (by decide)).1.2.2,
   (pq_index_discipline [.pushOp {}, .pushOp { added := 1 }, .swapOp 0 1, .popOp]
      (Push PQ.empty {}) (by decide) (by decide) (by decide)).2.1,
   (pq_index_discipline [.pushOp {}, .pushOp { added := 1 }, .swapOp 0 1, .popOp]
      (Push PQ.empty {}) (by decide) (by decide) (by decide)).2.2⟩

end Pool
